import Mathlib

/-!
Shallow embedding of three components of the OFRAK binary-analysis platform
(files `ofrak_core/ofrak/core/comments.py`, `entropy/entropy.py`, `uefi.py`),
together with proofs about the behaviour of the embedded operations.

Modelling conventions:
* Python `bytes` values become `List Nat` (one `Nat` per byte).
* A Python `dict` (which preserves insertion order and has unique keys)
  becomes an association list `List (K × V)`; `dictLookup`, `dictSet`,
  `dictDel` mirror `d[k]`/`k in d`, `d[k] = v`, and `del d[k]`.
* Raising an exception becomes returning `Except.error`; the platform-side
  effect "the raised exception propagates and the resource is untouched" is
  captured by the `run*` wrappers, which leave the state unchanged on error.
-/

set_option maxRecDepth 10000

namespace OfrakModel

/-- Byte range over a resource's data, from `ofrak_type.range.Range` (not part
of the supplied source; only its `start`/`end` integer fields are used by the
comments component).  The Python attribute `end` is named `stop` here because
`end` is a reserved word in Lean. -/
structure Range where
  start : Int
  stop : Int
deriving DecidableEq, Repr

/-- The mapping held by `CommentsAttributes`: Python
`Dict[Optional[Range], List[str]]`, modelled as an insertion-ordered
association list with unique keys. -/
abbrev CommentsMap : Type := List (Option Range × List String)

/-- Lookup in an association list: Python `d[k]` / `d.get(k)` / `k in d`. -/
def dictLookup {K V : Type} [DecidableEq K] (m : List (K × V)) (k : K) : Option V :=
  match m with
  | [] => none
  | p :: rest => if p.1 = k then some p.2 else dictLookup rest k

/-- Assignment `d[k] = v` on a Python dict: if the key is present the value is
replaced in place (position preserved), otherwise the pair is appended at the
end (insertion order). -/
def dictSet {K V : Type} [DecidableEq K] (m : List (K × V)) (k : K) (v : V) :
    List (K × V) :=
  if (dictLookup m k).isSome then
    m.map (fun p => if p.1 = k then (k, v) else p)
  else
    m ++ [(k, v)]

/-- Deletion `del d[k]` on a Python dict (the caller has checked presence;
on an absent key the Python code raises `KeyError`, handled separately in the
embedded operations). -/
def dictDel {K V : Type} [DecidableEq K] (m : List (K × V)) (k : K) : List (K × V) :=
  m.filter (fun p => decide (p.1 ≠ k))

/-- Python `list.remove(x)`: remove the first occurrence of `x`, or raise
`ValueError` (modelled as `none`) when `x` is absent. -/
def removeFirst (l : List String) (x : String) : Option (List String) :=
  match l with
  | [] => none
  | y :: rest => if y = x then some rest else (removeFirst rest x).map (fun r => y :: r)

/-- The slice of resource state the comments component touches: the length of
the resource's data, the resource id (`resource.get_id()`, a byte string), and
the stored `CommentsAttributes` value (`none` when the attribute is absent, in
which case `resource.get_attributes` raises `NotFoundError`, caught by the
modifiers and treated as the empty mapping). -/
structure ResourceState where
  dataLen : Nat
  resourceId : List Nat
  comments : Option CommentsMap

/-- Errors raised by the comments modifiers.  `valueError` is the
`ValueError` from `AddCommentModifier.modify` (InvalidInput-class, naming the
range and the resource); the two `notFound*` constructors are the
`NotFoundError`s raised by `DeleteCommentModifier.modify` from its `KeyError`
and `ValueError` handlers respectively. -/
inductive CommentError where
  | valueError (r : Range) (resourceId : List Nat)
  | notFoundRange (r : Option Range) (resourceId : List Nat)
  | notFoundComment (text : String) (r : Option Range) (resourceId : List Nat)
deriving DecidableEq

/-- Whether an error is NotFound-class. -/
def CommentError.isNotFound : CommentError → Bool
  | .valueError _ _ => false
  | .notFoundRange _ _ => true
  | .notFoundComment _ _ _ => true

/-- The mapping update performed by `AddCommentModifier.modify` after
validation: `if key not in comments: comments[key] = []` followed by
`comments[key].append(text)`. -/
def addToMap (comments : CommentsMap) (k : Option Range) (t : String) : CommentsMap :=
  let c1 := if dictLookup comments k = none then dictSet comments k ([] : List String)
            else comments
  dictSet c1 k ((dictLookup c1 k).getD [] ++ [t])

/-- `AddCommentModifier.modify` (comments.py lines 33-56): validate the range
against the resource data length, read the existing `CommentsAttributes`
(empty mapping when absent), append the comment text under the range key, and
return the mapping that is written back via `resource.add_attributes`. -/
def AddCommentModifier.modify (s : ResourceState) (cfg : Option Range × String) :
    Except CommentError CommentsMap :=
  match cfg.1 with
  | some r =>
    if r.start < 0 || r.stop > (s.dataLen : Int) then
      Except.error (CommentError.valueError r s.resourceId)
    else
      Except.ok (addToMap (s.comments.getD []) cfg.1 cfg.2)
  | none => Except.ok (addToMap (s.comments.getD []) cfg.1 cfg.2)

/-- Platform-level effect of running the Add modifier: on success the returned
mapping is written back as the new `CommentsAttributes` value; a raised
exception propagates and the resource is untouched. -/
def runAdd (s : ResourceState) (cfg : Option Range × String) : ResourceState :=
  match AddCommentModifier.modify s cfg with
  | Except.ok m => { s with comments := some m }
  | Except.error _ => s

/-- `DeleteCommentModifier.modify` (comments.py lines 89-120): with no comment
text, `del comments[range]` (KeyError on an absent key becomes
`NotFoundError`); with a text, `comments[range].remove(text)` (KeyError /
ValueError become `NotFoundError`) followed by deleting the key when its list
became empty.  The returned mapping is written back on success. -/
def DeleteCommentModifier.modify (s : ResourceState)
    (cfg : Option Range × Option String) : Except CommentError CommentsMap :=
  match cfg.2 with
  | none =>
    match dictLookup (s.comments.getD []) cfg.1 with
    | none => Except.error (CommentError.notFoundRange cfg.1 s.resourceId)
    | some _ => Except.ok (dictDel (s.comments.getD []) cfg.1)
  | some t =>
    match dictLookup (s.comments.getD []) cfg.1 with
    | none => Except.error (CommentError.notFoundRange cfg.1 s.resourceId)
    | some l =>
      match removeFirst l t with
      | none => Except.error (CommentError.notFoundComment t cfg.1 s.resourceId)
      | some l2 =>
        if l2 = [] then Except.ok (dictDel (s.comments.getD []) cfg.1)
        else Except.ok (dictSet (s.comments.getD []) cfg.1 l2)

/-- Platform-level effect of running the Delete modifier (see `runAdd`). -/
def runDelete (s : ResourceState) (cfg : Option Range × Option String) :
    ResourceState :=
  match DeleteCommentModifier.modify s cfg with
  | Except.ok m => { s with comments := some m }
  | Except.error _ => s

/-- Decidable form of the CommentsAttributes invariant: every range key
present in the mapping has a non-empty list of comments. -/
def invNonEmpty (m : CommentsMap) : Bool :=
  m.all (fun p => !p.2.isEmpty)

/-! ### Binary statistical summary subsystem (`entropy/entropy.py`) -/

/-- `sample_entropy` (entropy.py lines 94-140).  Byte strings are `List Nat`.
The per-window Shannon-entropy computation is performed by an external
backend (GPU / C / pure-Python, all outside the supplied source), so it is a
parameter `entropyOf`; the embedded function is the control flow around it:
the short-input guard (`len(data) < window_size` returns `b""`), the
`len(result) <= max_samples` pass-through, and the decimation
`bytes(result[math.floor(i * skip)] for i in range(max_samples))` with
`skip = len(result) / max_samples`.  Python's float division is modelled as
exact rational division, so `math.floor(i * skip)` becomes the Nat division
`i * len / max_samples`; the two agree whenever `i * len < 2^53`, i.e. for
every sequence an IEEE double can index exactly.  The `resource_id` argument
only feeds the progress-logging callback and is omitted. -/
def sample_entropy (entropyOf : List Nat → List Nat) (data : List Nat)
    (window_size : Nat) (max_samples : Nat) : List Nat :=
  if data.length < window_size then []
  else if (entropyOf data).length ≤ max_samples then entropyOf data
  else
    (List.range max_samples).map
      (fun i => (entropyOf data).getD (i * (entropyOf data).length / max_samples) 0)

/-- `sample_magnitude` (entropy.py lines 143-149): return the raw data when
`len(data) < max_samples`, otherwise decimate with the same
nearest-lower-neighbor rule as `sample_entropy` (same float modelling). -/
def sample_magnitude (data : List Nat) (max_samples : Nat) : List Nat :=
  if data.length < max_samples then data
  else
    (List.range max_samples).map
      (fun i => data.getD (i * data.length / max_samples) 0)

/-- Retry skeleton of `DataSummaryAnalyzer.analyze` (entropy.py lines 72-91),
with `self.max_analysis_retries = 10` inlined.  Following the claim's model,
`crashes d` says whether the computation attempt made by the call at depth `d`
ends in a `BrokenProcessPool` crash (triggering one pool replacement and one
recursive retry at depth `d + 1`).  The result records the run:
the first component lists the depths at which a computation attempt (the
`try` block submitting work to the pool) was actually made, and the second
component is `true` exactly when the `depth > 10` guard fired and the
`RuntimeError("Analysis process killed more than 10 times. Aborting.")`
was raised. -/
def DataSummaryAnalyzer.analyze (crashes : Nat → Bool) (depth : Nat) :
    List Nat × Bool :=
  if _h : depth > 10 then ([], true)
  else if crashes depth then
    (depth :: (DataSummaryAnalyzer.analyze crashes (depth + 1)).1,
      (DataSummaryAnalyzer.analyze crashes (depth + 1)).2)
  else ([depth], false)
termination_by 11 - depth
decreasing_by omega

/-! ### UEFI unpacker (`uefi.py`) -/

/-- `subprocess.CalledProcessError(returncode=returncode, cmd=cmd)` as raised
by `UefiUnpacker.unpack`. -/
structure ProcessError where
  returncode : Int
  cmd : List String
deriving DecidableEq

/-- The command line built by `UefiUnpacker.unpack`:
`cmd = ["uefiextract", "uefi.rom"]`. -/
def uefiCmd : List String := ["uefiextract", "uefi.rom"]

/-- `UefiUnpacker.unpack` (uefi.py lines 41-59), abstracted over the external
tool run: `exitCode` is the awaited `proc.returncode` and `extracted` is the
tree of child resources that `initialize_from_disk` would create from the
tool's `uefi.rom.dump` output directory (`α` keeps the children abstract).
The temporary-directory staging and `flush_data_to_disk` are I/O with no
bearing on the claims.  `if proc.returncode:` is Python truthiness, i.e. any
non-zero exit code; on that path `CalledProcessError` is raised before
`view_as`/`initialize_from_disk` runs, so no children are produced. -/
def UefiUnpacker.unpack {α : Type} (exitCode : Int) (extracted : List α) :
    Except ProcessError (List α) :=
  if exitCode ≠ 0 then Except.error ⟨exitCode, uefiCmd⟩
  else Except.ok extracted

/-- Child resources committed by an unpack run: those of a successful run;
a raised error commits none. -/
def childrenCreated {α : Type} (r : Except ProcessError (List α)) : List α :=
  match r with
  | Except.ok cs => cs
  | Except.error _ => []

/-! ### Lemmas about the dict model -/

theorem ne_of_dictLookup_none {K V : Type} [DecidableEq K] {m : List (K × V)} {k : K}
    {p : K × V} (h : dictLookup m k = none) (hp : p ∈ m) : p.1 ≠ k := by
  induction m with
  | nil => cases hp
  | cons q rest ih =>
    rw [dictLookup] at h
    by_cases hq : q.1 = k
    · simp [hq] at h
    · rcases List.mem_cons.1 hp with rfl | hmem
      · exact hq
      · exact ih (by simpa [hq] using h) hmem

theorem dictLookup_append_of_none {K V : Type} [DecidableEq K] {m : List (K × V)}
    (l : List (K × V)) {k : K} (h : dictLookup m k = none) :
    dictLookup (m ++ l) k = dictLookup l k := by
  induction m with
  | nil => simp
  | cons q rest ih =>
    rw [dictLookup] at h
    by_cases hq : q.1 = k
    · simp [hq] at h
    · rw [List.cons_append, dictLookup, if_neg hq]
      exact ih (by simpa [hq] using h)

theorem dictLookup_map_update_self {K V : Type} [DecidableEq K] {m : List (K × V)}
    {k : K} (v : V) (h : (dictLookup m k).isSome) :
    dictLookup (m.map (fun p => if p.1 = k then (k, v) else p)) k = some v := by
  induction m with
  | nil => simp [dictLookup] at h
  | cons q rest ih =>
    by_cases hq : q.1 = k
    · simp [dictLookup, hq]
    · rw [dictLookup, if_neg hq] at h
      simpa [dictLookup, hq] using ih h

theorem dictLookup_map_update_other {K V : Type} [DecidableEq K] {m : List (K × V)}
    {k k2 : K} (v : V) (h : k2 ≠ k) :
    dictLookup (m.map (fun p => if p.1 = k then (k, v) else p)) k2 = dictLookup m k2 := by
  induction m with
  | nil => simp [dictLookup]
  | cons q rest ih =>
    by_cases hq : q.1 = k
    · have hk2 : ¬ k = k2 := fun hc => h hc.symm
      rw [List.map_cons, dictLookup, dictLookup]
      simp only [hq, if_pos]
      rw [if_neg hk2, if_neg (hq ▸ hk2), ih]
    · by_cases hq2 : q.1 = k2
      · simp [dictLookup, hq, hq2, h]
      · simp [dictLookup, hq, hq2, ih]

theorem dictLookup_append_singleton_other {K V : Type} [DecidableEq K]
    (m : List (K × V)) {k k2 : K} (v : V) (h : k2 ≠ k) :
    dictLookup (m ++ [(k, v)]) k2 = dictLookup m k2 := by
  induction m with
  | nil =>
    rw [List.nil_append, dictLookup, dictLookup, if_neg (fun hc : k = k2 => h hc.symm)]
    rfl
  | cons q rest ih =>
    rw [List.cons_append, dictLookup, dictLookup]
    by_cases hq : q.1 = k2
    · rw [if_pos hq, if_pos hq]
    · rw [if_neg hq, if_neg hq, ih]

theorem dictLookup_dictSet_self {K V : Type} [DecidableEq K] (m : List (K × V))
    (k : K) (v : V) : dictLookup (dictSet m k v) k = some v := by
  rw [dictSet]
  by_cases h : (dictLookup m k).isSome
  · rw [if_pos h]
    exact dictLookup_map_update_self v h
  · rw [if_neg h]
    have hnone : dictLookup m k = none := by
      cases hl : dictLookup m k
      · rfl
      · rw [hl] at h; simp at h
    rw [dictLookup_append_of_none _ hnone, dictLookup]
    simp

theorem dictLookup_dictSet_other {K V : Type} [DecidableEq K] (m : List (K × V))
    {k k2 : K} (v : V) (h : k2 ≠ k) :
    dictLookup (dictSet m k v) k2 = dictLookup m k2 := by
  rw [dictSet]
  by_cases hs : (dictLookup m k).isSome
  · rw [if_pos hs]
    exact dictLookup_map_update_other v h
  · rw [if_neg hs]
    exact dictLookup_append_singleton_other m v h

theorem dictLookup_dictDel_self {K V : Type} [DecidableEq K] (m : List (K × V))
    (k : K) : dictLookup (dictDel m k) k = none := by
  induction m with
  | nil => rfl
  | cons q rest ih =>
    rw [dictDel, List.filter_cons]
    rw [dictDel] at ih
    by_cases hq : q.1 = k
    · rw [if_neg (by simp [hq] : ¬ decide (q.1 ≠ k) = true)]
      exact ih
    · rw [if_pos (by simp [hq] : decide (q.1 ≠ k) = true)]
      rw [dictLookup, if_neg hq]
      exact ih

theorem dictLookup_dictDel_other {K V : Type} [DecidableEq K] (m : List (K × V))
    {k k2 : K} (h : k2 ≠ k) :
    dictLookup (dictDel m k) k2 = dictLookup m k2 := by
  induction m with
  | nil => rfl
  | cons q rest ih =>
    rw [dictDel, List.filter_cons]
    rw [dictDel] at ih
    by_cases hq : q.1 = k
    · have hq2 : ¬ q.1 = k2 := fun hc => h (hc ▸ hq)
      rw [if_neg (by simp [hq] : ¬ decide (q.1 ≠ k) = true)]
      rw [dictLookup, if_neg hq2]
      exact ih
    · rw [if_pos (by simp [hq] : decide (q.1 ≠ k) = true)]
      rw [dictLookup, dictLookup]
      by_cases hq2 : q.1 = k2
      · rw [if_pos hq2, if_pos hq2]
      · rw [if_neg hq2, if_neg hq2]
        exact ih

theorem mem_dictDel {K V : Type} [DecidableEq K] {m : List (K × V)} {k : K}
    {p : K × V} (h : p ∈ dictDel m k) : p ∈ m :=
  (List.mem_filter.1 h).1

theorem mem_dictSet {K V : Type} [DecidableEq K] {m : List (K × V)} {k : K} {v : V}
    {p : K × V} (h : p ∈ dictSet m k v) : (p ∈ m ∧ p.1 ≠ k) ∨ p = (k, v) := by
  rw [dictSet] at h
  by_cases hs : (dictLookup m k).isSome
  · rw [if_pos hs] at h
    rcases List.mem_map.1 h with ⟨q, hq, hfq⟩
    by_cases hqk : q.1 = k
    · right
      rw [if_pos hqk] at hfq
      exact hfq.symm
    · left
      rw [if_neg hqk] at hfq
      exact ⟨hfq ▸ hq, hfq ▸ hqk⟩
  · rw [if_neg hs] at h
    have hnone : dictLookup m k = none := by
      cases hl : dictLookup m k
      · rfl
      · rw [hl] at hs; simp at hs
    rcases List.mem_append.1 h with hm | hlast
    · exact Or.inl ⟨hm, ne_of_dictLookup_none hnone hm⟩
    · exact Or.inr (List.mem_singleton.1 hlast)

theorem removeFirst_eq_none_iff (l : List String) (x : String) :
    removeFirst l x = none ↔ x ∉ l := by
  induction l with
  | nil => simp [removeFirst]
  | cons y rest ih =>
    rw [removeFirst]
    by_cases hy : y = x
    · simp [hy]
    · rw [if_neg hy, Option.map_eq_none', ih]
      constructor
      · intro hx hc
        rcases List.mem_cons.1 hc with hc1 | hc2
        · exact hy hc1.symm
        · exact hx hc2
      · intro hx hc
        exact hx (List.mem_cons_of_mem _ hc)

theorem removeFirst_append_cons (pre suf : List String) {x : String}
    (hpre : x ∉ pre) : removeFirst (pre ++ x :: suf) x = some (pre ++ suf) := by
  induction pre with
  | nil => simp [removeFirst]
  | cons y rest ih =>
    have hy : ¬ y = x := fun hc => hpre (by simp [hc])
    rw [List.cons_append, removeFirst, if_neg hy,
      ih (fun hc => hpre (List.mem_cons_of_mem _ hc))]
    simp

theorem dictLookup_addToMap_self (m : CommentsMap) (k : Option Range) (t : String) :
    dictLookup (addToMap m k t) k = some ((dictLookup m k).getD [] ++ [t]) := by
  by_cases h : dictLookup m k = none
  · simp [addToMap, h, dictLookup_dictSet_self]
  · simp [addToMap, h, dictLookup_dictSet_self]

theorem dictLookup_addToMap_other (m : CommentsMap) {k k2 : Option Range}
    (t : String) (h : k2 ≠ k) :
    dictLookup (addToMap m k t) k2 = dictLookup m k2 := by
  by_cases hn : dictLookup m k = none
  · simp [addToMap, hn, h, dictLookup_dictSet_other]
  · simp [addToMap, hn, h, dictLookup_dictSet_other]

theorem invNonEmpty_iff (m : CommentsMap) :
    invNonEmpty m = true ↔ ∀ p ∈ m, p.2 ≠ [] := by
  unfold invNonEmpty
  rw [List.all_eq_true]
  constructor
  · intro h p hp
    have := h p hp
    simpa using this
  · intro h p hp
    simpa using h p hp

/-! ### Claims about the comments component -/

/-- C3: for the comment Add operation with a given (non-absent) range, if
`0 ≤ start` and `end ≤ len(resource_data)` the operation succeeds; otherwise
it fails with the InvalidInput-class `ValueError` identifying the range and
the resource, and on that failure no attribute write occurs, so any existing
CommentsAttributes value is left unchanged. -/
theorem claim_C3 (s : ResourceState) (r : Range) (t : String) :
    (0 ≤ r.start ∧ r.stop ≤ (s.dataLen : Int) →
      ∃ m2, AddCommentModifier.modify s (some r, t) = Except.ok m2)
    ∧ (¬ (0 ≤ r.start ∧ r.stop ≤ (s.dataLen : Int)) →
      AddCommentModifier.modify s (some r, t) =
        Except.error (CommentError.valueError r s.resourceId)
      ∧ runAdd s (some r, t) = s) := by
  constructor
  · intro hv
    have hcond : ¬ (r.start < 0 ∨ r.stop > (s.dataLen : Int)) := by omega
    simp only [AddCommentModifier.modify]
    rw [if_neg (by simpa using hcond)]
    exact ⟨_, rfl⟩
  · intro hv
    have hcond : r.start < 0 ∨ r.stop > (s.dataLen : Int) := by omega
    have hmod : AddCommentModifier.modify s (some r, t) =
        Except.error (CommentError.valueError r s.resourceId) := by
      simp only [AddCommentModifier.modify]
      rw [if_pos (by simpa using hcond)]
    exact ⟨hmod, by simp [runAdd, hmod]⟩

/-- C3 witness: a concrete out-of-bounds range (end 5 > data length 3) on a
resource with an existing comment map is rejected and leaves the state
unchanged. -/
theorem claim_C3_witness :
    ¬ (0 ≤ (⟨0, 5⟩ : Range).start
        ∧ (⟨0, 5⟩ : Range).stop ≤ ((⟨3, [7], some [(none, ["x"])]⟩ :
            ResourceState).dataLen : Int))
    ∧ (AddCommentModifier.modify ⟨3, [7], some [(none, ["x"])]⟩ (some ⟨0, 5⟩, "y") =
        Except.error (CommentError.valueError ⟨0, 5⟩ [7])
      ∧ runAdd ⟨3, [7], some [(none, ["x"])]⟩ (some ⟨0, 5⟩, "y") =
        ⟨3, [7], some [(none, ["x"])]⟩) :=
  ⟨by norm_num, (claim_C3 ⟨3, [7], some [(none, ["x"])]⟩ ⟨0, 5⟩ "y").2 (by norm_num)⟩

/-- C6: after a successful Add, the stored mapping is the previous mapping
(empty when the attribute was absent) with the text appended at the end of the
list under the given key (key created when absent) and every other key
unchanged; in particular two successive adds under the absent range yield a
single absent-range entry holding both strings in insertion order. -/
theorem claim_C6 (s : ResourceState) (rng : Option Range) (t : String)
    (hvalid : ∀ r, rng = some r → 0 ≤ r.start ∧ r.stop ≤ (s.dataLen : Int)) :
    (∃ m2, AddCommentModifier.modify s (rng, t) = Except.ok m2
      ∧ dictLookup m2 rng = some ((dictLookup (s.comments.getD []) rng).getD [] ++ [t])
      ∧ ∀ k, k ≠ rng → dictLookup m2 k = dictLookup (s.comments.getD []) k)
    ∧ (∀ (len : Nat) (id : List Nat) (t1 t2 : String),
      (runAdd (runAdd ⟨len, id, none⟩ (none, t1)) (none, t2)).comments
        = some [(none, [t1, t2])]) := by
  constructor
  · have hok : AddCommentModifier.modify s (rng, t) =
        Except.ok (addToMap (s.comments.getD []) rng t) := by
      cases rng with
      | none => rfl
      | some r =>
        have hb := hvalid r rfl
        have hcond : ¬ (r.start < 0 ∨ r.stop > (s.dataLen : Int)) := by omega
        simp only [AddCommentModifier.modify]
        rw [if_neg (by simpa using hcond)]
    exact ⟨_, hok, dictLookup_addToMap_self _ _ _,
      fun k hk => dictLookup_addToMap_other _ _ hk⟩
  · intro len id t1 t2
    rfl

/-- C6 witness: adding "a" then "b" under the absent range starting from a
resource with no CommentsAttributes yields the entry `[(None, ["a", "b"])]`,
and the general conclusion holds at that first add. -/
theorem claim_C6_witness :
    (∃ m2, AddCommentModifier.modify ⟨4, [9], none⟩ (none, "a") = Except.ok m2
      ∧ dictLookup m2 none =
          some ((dictLookup ((⟨4, [9], none⟩ : ResourceState).comments.getD []) none).getD []
            ++ ["a"])
      ∧ ∀ k, k ≠ none →
          dictLookup m2 k = dictLookup ((⟨4, [9], none⟩ : ResourceState).comments.getD []) k)
    ∧ (∀ (len : Nat) (id : List Nat) (t1 t2 : String),
      (runAdd (runAdd ⟨len, id, none⟩ (none, t1)) (none, t2)).comments
        = some [(none, [t1, t2])]) :=
  claim_C6 ⟨4, [9], none⟩ none "a" (fun r hr => by cases hr)

/-- C4: the Delete operation fails (always with a NotFound-class error) if
and only if the range key is absent from the current mapping or a text is
given that is not in the list under that key; and on every failure no
attribute write occurs. -/
theorem claim_C4 (s : ResourceState) (cfg : Option Range × Option String) :
    ((∃ e, DeleteCommentModifier.modify s cfg = Except.error e ∧ e.isNotFound = true) ↔
      (dictLookup (s.comments.getD []) cfg.1 = none
        ∨ ∃ t l, cfg.2 = some t ∧ dictLookup (s.comments.getD []) cfg.1 = some l
            ∧ t ∉ l))
    ∧ (∀ e, DeleteCommentModifier.modify s cfg = Except.error e →
        runDelete s cfg = s) := by
  obtain ⟨rng, txt⟩ := cfg
  constructor
  · cases txt with
    | none =>
      cases hl : dictLookup (s.comments.getD []) rng with
      | none =>
        have hmod : DeleteCommentModifier.modify s (rng, none) =
            Except.error (CommentError.notFoundRange rng s.resourceId) := by
          simp [DeleteCommentModifier.modify, hl]
        exact ⟨fun _ => Or.inl rfl, fun _ => ⟨_, hmod, rfl⟩⟩
      | some l =>
        have hmod : DeleteCommentModifier.modify s (rng, none) =
            Except.ok (dictDel (s.comments.getD []) rng) := by
          simp [DeleteCommentModifier.modify, hl]
        constructor
        · rintro ⟨e, he, -⟩
          rw [hmod] at he
          cases he
        · rintro (hc | ⟨t2, l2, ht2, -, -⟩)
          · cases hc
          · cases ht2
    | some t =>
      cases hl : dictLookup (s.comments.getD []) rng with
      | none =>
        have hmod : DeleteCommentModifier.modify s (rng, some t) =
            Except.error (CommentError.notFoundRange rng s.resourceId) := by
          simp [DeleteCommentModifier.modify, hl]
        exact ⟨fun _ => Or.inl rfl, fun _ => ⟨_, hmod, rfl⟩⟩
      | some l =>
        cases hr : removeFirst l t with
        | none =>
          have hmod : DeleteCommentModifier.modify s (rng, some t) =
              Except.error (CommentError.notFoundComment t rng s.resourceId) := by
            simp [DeleteCommentModifier.modify, hl, hr]
          exact ⟨fun _ => Or.inr ⟨t, l, rfl, rfl, (removeFirst_eq_none_iff l t).1 hr⟩,
            fun _ => ⟨_, hmod, rfl⟩⟩
        | some l2 =>
          have hmem : t ∈ l := by
            by_contra hc
            rw [(removeFirst_eq_none_iff l t).2 hc] at hr
            cases hr
          constructor
          · rintro ⟨e, he, -⟩
            by_cases h2 : l2 = [] <;>
              simp [DeleteCommentModifier.modify, hl, hr, h2] at he
          · rintro (hc | ⟨t2, l3, ht2, hl3, hnot⟩)
            · cases hc
            · cases ht2
              cases hl3
              exact absurd hmem hnot
  · intro e he
    simp [runDelete, he]

/-- C4 witness: deleting text "b" under the absent-range key whose list is
only `["a"]` fails with NotFound and leaves the state unchanged. -/
theorem claim_C4_witness :
    ((∃ e, DeleteCommentModifier.modify ⟨3, [7], some [(none, ["a"])]⟩ (none, some "b") =
        Except.error e ∧ e.isNotFound = true) ↔
      (dictLookup ((⟨3, [7], some [(none, ["a"])]⟩ : ResourceState).comments.getD []) none
          = none
        ∨ ∃ t l, (some "b" : Option String) = some t
            ∧ dictLookup ((⟨3, [7], some [(none, ["a"])]⟩ :
                ResourceState).comments.getD []) none = some l
            ∧ t ∉ l))
    ∧ (∀ e, DeleteCommentModifier.modify ⟨3, [7], some [(none, ["a"])]⟩ (none, some "b") =
        Except.error e →
        runDelete ⟨3, [7], some [(none, ["a"])]⟩ (none, some "b") =
          ⟨3, [7], some [(none, ["a"])]⟩) :=
  claim_C4 ⟨3, [7], some [(none, ["a"])]⟩ (none, some "b")

/-- C5: on a successful Delete with no text the range key is removed entirely
and every other key untouched; with a text, the stored list loses the removed
occurrence, and when that removal empties the list the key itself is absent
from the resulting mapping (never present as an empty list). -/
theorem claim_C5 (s : ResourceState) (rng : Option Range) :
    (∀ m2, DeleteCommentModifier.modify s (rng, none) = Except.ok m2 →
      dictLookup m2 rng = none
      ∧ ∀ k, k ≠ rng → dictLookup m2 k = dictLookup (s.comments.getD []) k)
    ∧ (∀ t m2, DeleteCommentModifier.modify s (rng, some t) = Except.ok m2 →
      ∃ l l2, dictLookup (s.comments.getD []) rng = some l
        ∧ removeFirst l t = some l2
        ∧ dictLookup m2 rng = (if l2 = [] then none else some l2)
        ∧ ∀ k, k ≠ rng → dictLookup m2 k = dictLookup (s.comments.getD []) k) := by
  constructor
  · intro m2 hm
    cases hl : dictLookup (s.comments.getD []) rng with
    | none => simp [DeleteCommentModifier.modify, hl] at hm
    | some l =>
      simp only [DeleteCommentModifier.modify, hl, Except.ok.injEq] at hm
      subst hm
      exact ⟨dictLookup_dictDel_self _ _,
        fun k hk => dictLookup_dictDel_other _ hk⟩
  · intro t m2 hm
    cases hl : dictLookup (s.comments.getD []) rng with
    | none => simp [DeleteCommentModifier.modify, hl] at hm
    | some l =>
      cases hr : removeFirst l t with
      | none => simp [DeleteCommentModifier.modify, hl, hr] at hm
      | some l2 =>
        refine ⟨l, l2, rfl, hr, ?_⟩
        simp only [DeleteCommentModifier.modify, hl, hr] at hm
        by_cases h2 : l2 = []
        · rw [if_pos h2] at hm ⊢
          simp only [Except.ok.injEq] at hm
          subst hm
          exact ⟨dictLookup_dictDel_self _ _,
            fun k hk => dictLookup_dictDel_other _ hk⟩
        · rw [if_neg h2] at hm ⊢
          simp only [Except.ok.injEq] at hm
          subst hm
          exact ⟨dictLookup_dictSet_self _ _ _,
            fun k hk => dictLookup_dictSet_other _ _ hk⟩

/-- C5 witness: deleting ("a" under the absent range) when it is the last
comment there removes the key entirely, at the concrete state
`[(None, ["a"]), (some ⟨0, 1⟩, ["keep"])]`. -/
theorem claim_C5_witness :
    (∀ m2, DeleteCommentModifier.modify
        ⟨3, [7], some [(none, ["a"]), (some ⟨0, 1⟩, ["keep"])]⟩ (none, none) =
          Except.ok m2 →
      dictLookup m2 none = none
      ∧ ∀ k, k ≠ none →
        dictLookup m2 k =
          dictLookup ((⟨3, [7], some [(none, ["a"]), (some ⟨0, 1⟩, ["keep"])]⟩ :
            ResourceState).comments.getD []) k)
    ∧ (∀ t m2, DeleteCommentModifier.modify
        ⟨3, [7], some [(none, ["a"]), (some ⟨0, 1⟩, ["keep"])]⟩ (none, some t) =
          Except.ok m2 →
      ∃ l l2, dictLookup ((⟨3, [7], some [(none, ["a"]), (some ⟨0, 1⟩, ["keep"])]⟩ :
            ResourceState).comments.getD []) none = some l
        ∧ removeFirst l t = some l2
        ∧ dictLookup m2 none = (if l2 = [] then none else some l2)
        ∧ ∀ k, k ≠ none →
          dictLookup m2 k =
            dictLookup ((⟨3, [7], some [(none, ["a"]), (some ⟨0, 1⟩, ["keep"])]⟩ :
              ResourceState).comments.getD []) k) :=
  claim_C5 ⟨3, [7], some [(none, ["a"]), (some ⟨0, 1⟩, ["keep"])]⟩ none

/-- C7: the invariant that every range key present in the mapping has a
non-empty comment list is preserved by every successful Add and every
successful Delete. -/
theorem claim_C7 :
    (∀ (s : ResourceState) (cfg : Option Range × String) m2,
      invNonEmpty (s.comments.getD []) = true →
      AddCommentModifier.modify s cfg = Except.ok m2 → invNonEmpty m2 = true)
    ∧ (∀ (s : ResourceState) (cfg : Option Range × Option String) m2,
      invNonEmpty (s.comments.getD []) = true →
      DeleteCommentModifier.modify s cfg = Except.ok m2 → invNonEmpty m2 = true) := by
  constructor
  · intro s cfg m2 hinv hok
    obtain ⟨rng, t⟩ := cfg
    have hm2 : m2 = addToMap (s.comments.getD []) rng t := by
      cases rng with
      | none => simpa [AddCommentModifier.modify] using hok.symm
      | some r =>
        simp only [AddCommentModifier.modify] at hok
        by_cases hc : r.start < 0 ∨ r.stop > (s.dataLen : Int)
        · rw [if_pos (by simpa using hc)] at hok
          cases hok
        · rw [if_neg (by simpa using hc)] at hok
          simpa using hok.symm
    subst hm2
    rw [invNonEmpty_iff] at hinv ⊢
    intro p hp
    rw [addToMap] at hp
    rcases mem_dictSet hp with ⟨hp1, hpk⟩ | rfl
    · by_cases hn : dictLookup (s.comments.getD []) rng = none
      · rw [if_pos hn] at hp1
        rcases mem_dictSet hp1 with ⟨hp2, -⟩ | rfl
        · exact hinv p hp2
        · exact absurd rfl hpk
      · rw [if_neg hn] at hp1
        exact hinv p hp1
    · simp
  · intro s cfg m2 hinv hok
    obtain ⟨rng, txt⟩ := cfg
    rw [invNonEmpty_iff] at hinv ⊢
    cases txt with
    | none =>
      cases hl : dictLookup (s.comments.getD []) rng with
      | none => simp [DeleteCommentModifier.modify, hl] at hok
      | some l =>
        simp only [DeleteCommentModifier.modify, hl, Except.ok.injEq] at hok
        subst hok
        exact fun p hp => hinv p (mem_dictDel hp)
    | some t =>
      cases hl : dictLookup (s.comments.getD []) rng with
      | none => simp [DeleteCommentModifier.modify, hl] at hok
      | some l =>
        cases hr : removeFirst l t with
        | none => simp [DeleteCommentModifier.modify, hl, hr] at hok
        | some l2 =>
          simp only [DeleteCommentModifier.modify, hl, hr] at hok
          by_cases h2 : l2 = []
          · rw [if_pos h2] at hok
            simp only [Except.ok.injEq] at hok
            subst hok
            exact fun p hp => hinv p (mem_dictDel hp)
          · rw [if_neg h2] at hok
            simp only [Except.ok.injEq] at hok
            subst hok
            intro p hp
            rcases mem_dictSet hp with ⟨hp1, -⟩ | rfl
            · exact hinv p hp1
            · exact h2

/-- C7 witness: at the concrete state `[(None, ["a"])]`, adding "b" under
the absent range yields `[(None, ["a", "b"])]`, which still satisfies the
invariant. -/
theorem claim_C7_witness :
    invNonEmpty ((⟨3, [7], some [(none, ["a"])]⟩ : ResourceState).comments.getD [])
      = true
    ∧ AddCommentModifier.modify ⟨3, [7], some [(none, ["a"])]⟩ (none, "b") =
        Except.ok [(none, ["a", "b"])]
    ∧ invNonEmpty [(none, ["a", "b"])] = true :=
  ⟨by decide, by rfl,
    claim_C7.1 ⟨3, [7], some [(none, ["a"])]⟩ (none, "b") [(none, ["a", "b"])]
      (by decide) (by rfl)⟩

/-- C10: when the list under a range key contains the given text more than
once (decomposed as `pre ++ t :: suf` with `t ∉ pre` and `t ∈ suf`), Delete
succeeds, removes exactly the first occurrence (the result list is
`pre ++ suf`, keeping the later duplicates), keeps the range key present, and
leaves other keys unchanged. -/
theorem claim_C10 (s : ResourceState) (rng : Option Range) (t : String)
    (pre suf : List String)
    (hl : dictLookup (s.comments.getD []) rng = some (pre ++ t :: suf))
    (hpre : t ∉ pre) (hsuf : t ∈ suf) :
    ∃ m2, DeleteCommentModifier.modify s (rng, some t) = Except.ok m2
      ∧ dictLookup m2 rng = some (pre ++ suf)
      ∧ ∀ k, k ≠ rng → dictLookup m2 k = dictLookup (s.comments.getD []) k := by
  have hrem := removeFirst_append_cons pre suf hpre
  have hne : ¬ (pre ++ suf = []) := by
    intro hc
    exact List.ne_nil_of_mem hsuf (List.append_eq_nil.1 hc).2
  refine ⟨dictSet (s.comments.getD []) rng (pre ++ suf), ?_, ?_, ?_⟩
  · simp only [DeleteCommentModifier.modify, hl, hrem]
    rw [if_neg hne]
  · exact dictLookup_dictSet_self _ _ _
  · exact fun k hk => dictLookup_dictSet_other _ _ hk

/-- C10 witness: deleting "a" from `[(None, ["a", "a"])]` keeps the key with
the one remaining duplicate. -/
theorem claim_C10_witness :
    dictLookup ((⟨3, [7], some [(none, ["a", "a"])]⟩ :
        ResourceState).comments.getD []) none = some ([] ++ "a" :: ["a"])
    ∧ "a" ∉ ([] : List String) ∧ "a" ∈ (["a"] : List String)
    ∧ ∃ m2, DeleteCommentModifier.modify ⟨3, [7], some [(none, ["a", "a"])]⟩
          (none, some "a") = Except.ok m2
        ∧ dictLookup m2 none = some ([] ++ ["a"])
        ∧ ∀ k, k ≠ none →
          dictLookup m2 k =
            dictLookup ((⟨3, [7], some [(none, ["a", "a"])]⟩ :
              ResourceState).comments.getD []) k :=
  ⟨rfl, by simp, by simp,
    claim_C10 ⟨3, [7], some [(none, ["a", "a"])]⟩ none "a" [] ["a"] rfl
      (by simp) (by simp)⟩

/-! ### Claims about the statistical summary subsystem -/

theorem getD_map_range (f : Nat → Nat) {i n : Nat} (h : i < n) :
    ((List.range n).map f).getD i 0 = f i := by
  have hlen : i < ((List.range n).map f).length := by simp [h]
  rw [List.getD_eq_getElem _ 0 hlen]
  simp

/-- C8: `sample_magnitude` returns a byte sequence equal to its input for
every input of length at most 2^20 = 1,048,576.  For lengths strictly below
the cap this is the pass-through branch; at exactly the cap the decimation
branch runs with `skip = 1` and reproduces the input element for element. -/
theorem claim_C8 (data : List Nat) (h : data.length ≤ 2 ^ 20) :
    sample_magnitude data (2 ^ 20) = data := by
  rcases lt_or_eq_of_le h with hlt | heq
  · rw [sample_magnitude, if_pos hlt]
  · rw [sample_magnitude, if_neg (by omega)]
    apply List.ext_getElem
    · simp [heq]
    · intro i h1 h2
      simp only [List.getElem_map, List.getElem_range]
      rw [heq, Nat.mul_div_cancel _ (by norm_num : 0 < 2 ^ 20)]
      exact List.getD_eq_getElem data 0 h2

/-- C8 witness at a concrete short input. -/
theorem claim_C8_witness :
    ([1, 2, 3] : List Nat).length ≤ 2 ^ 20
    ∧ sample_magnitude [1, 2, 3] (2 ^ 20) = [1, 2, 3] :=
  ⟨by norm_num, claim_C8 [1, 2, 3] (by norm_num)⟩

/-- C2: for `sample_entropy` (window size 256, maximum sample count 2^20),
when the per-window entropy sequence has length `N ≤ 2^20` the full
undecimated sequence is returned; when `N > 2^20` the result has exactly
2^20 elements and element `i` is the sequence element at index
`i * N / 2^20` (exact rational floor) for every `i < 2^20`. -/
theorem claim_C2 (entropyOf : List Nat → List Nat) (data : List Nat)
    (hws : 256 ≤ data.length) :
    ((entropyOf data).length ≤ 2 ^ 20 →
      sample_entropy entropyOf data 256 (2 ^ 20) = entropyOf data)
    ∧ (2 ^ 20 < (entropyOf data).length →
      (sample_entropy entropyOf data 256 (2 ^ 20)).length = 2 ^ 20
      ∧ ∀ i, i < 2 ^ 20 →
        (sample_entropy entropyOf data 256 (2 ^ 20)).getD i 0
          = (entropyOf data).getD (i * (entropyOf data).length / 2 ^ 20) 0) := by
  have hnl : ¬ data.length < 256 := by omega
  constructor
  · intro hle
    rw [sample_entropy, if_neg hnl, if_pos hle]
  · intro hgt
    have hng : ¬ (entropyOf data).length ≤ 2 ^ 20 := by omega
    rw [sample_entropy, if_neg hnl, if_neg hng]
    exact ⟨by simp, fun i hi => getD_map_range _ hi⟩

/-- C2 witness: a concrete 256-byte input with a one-element per-window
sequence takes the undecimated branch. -/
theorem claim_C2_witness :
    256 ≤ (List.replicate 256 (0 : Nat)).length
    ∧ ((((fun l : List Nat => [l.length]) (List.replicate 256 (0 : Nat))).length ≤ 2 ^ 20 →
        sample_entropy (fun l : List Nat => [l.length])
            (List.replicate 256 (0 : Nat)) 256 (2 ^ 20)
          = (fun l : List Nat => [l.length]) (List.replicate 256 (0 : Nat)))
      ∧ (2 ^ 20 < (((fun l : List Nat => [l.length])
            (List.replicate 256 (0 : Nat))).length) →
        (sample_entropy (fun l : List Nat => [l.length])
            (List.replicate 256 (0 : Nat)) 256 (2 ^ 20)).length = 2 ^ 20
        ∧ ∀ i, i < 2 ^ 20 →
          (sample_entropy (fun l : List Nat => [l.length])
              (List.replicate 256 (0 : Nat)) 256 (2 ^ 20)).getD i 0
            = ((fun l : List Nat => [l.length])
                (List.replicate 256 (0 : Nat))).getD
                (i * ((fun l : List Nat => [l.length])
                  (List.replicate 256 (0 : Nat))).length / 2 ^ 20) 0)) :=
  ⟨by simp, claim_C2 (fun l : List Nat => [l.length]) (List.replicate 256 0) (by simp)⟩

/-! ### Claims about the analyzer retry loop -/

theorem analyze_stop (c : Nat → Bool) (d : Nat) (h : d > 10) :
    DataSummaryAnalyzer.analyze c d = ([], true) := by
  rw [DataSummaryAnalyzer.analyze]
  rw [dif_pos h]

theorem analyze_crash (c : Nat → Bool) (d : Nat) (h : ¬ d > 10) (hc : c d = true) :
    DataSummaryAnalyzer.analyze c d =
      (d :: (DataSummaryAnalyzer.analyze c (d + 1)).1,
        (DataSummaryAnalyzer.analyze c (d + 1)).2) := by
  rw [DataSummaryAnalyzer.analyze]
  rw [dif_neg h, if_pos hc]

theorem analyze_success (c : Nat → Bool) (d : Nat) (h : ¬ d > 10) (hc : c d = false) :
    DataSummaryAnalyzer.analyze c d = ([d], false) := by
  rw [DataSummaryAnalyzer.analyze]
  rw [dif_neg h, if_neg (by simp [hc])]

theorem analyze_all_crash (c : Nat → Bool) (hall : ∀ d, d ≤ 10 → c d = true) :
    ∀ k, k ≤ 11 →
      DataSummaryAnalyzer.analyze c (11 - k) = (List.range' (11 - k) k, true) := by
  intro k
  induction k with
  | zero =>
    intro _
    simpa using analyze_stop c 11 (by norm_num)
  | succ n ih =>
    intro hk
    have hd : 11 - (n + 1) ≤ 10 := by omega
    have hsucc : 11 - (n + 1) + 1 = 11 - n := by omega
    rw [analyze_crash c (11 - (n + 1)) (by omega) (hall _ hd), hsucc,
      ih (by omega)]
    rw [show List.range' (11 - (n + 1)) (n + 1)
        = (11 - (n + 1)) :: List.range' (11 - (n + 1) + 1) n from rfl, hsucc]

/-- C1 counterexample: with exactly the first 10 computation attempts
crashing (attempt at depth `d` crashes iff `d < 10`), the operation does NOT
stop: the attempt trace is `List.range 11` — so an 11th attempt, at depth 10,
is made after the crash count has reached 10 — and no `RuntimeError` is
raised (the run succeeds), contradicting the claim that once the crash count
reaches 10 no further computation attempt is made and the operation raises. -/
theorem claim_C1_counterexample :
    DataSummaryAnalyzer.analyze (fun d => decide (d < 10)) 0 = (List.range 11, false)
    ∧ (10 : Nat) ∈ (DataSummaryAnalyzer.analyze (fun d => decide (d < 10)) 0).1
    ∧ (DataSummaryAnalyzer.analyze (fun d => decide (d < 10)) 0).2 = false := by
  have h10 : DataSummaryAnalyzer.analyze (fun d => decide (d < 10)) 10 = ([10], false) :=
    analyze_success _ 10 (by norm_num) (by norm_num)
  have h9 : DataSummaryAnalyzer.analyze (fun d => decide (d < 10)) 9 =
      ([9, 10], false) := by
    rw [analyze_crash _ 9 (by norm_num) (by norm_num), h10]
  have h8 : DataSummaryAnalyzer.analyze (fun d => decide (d < 10)) 8 =
      ([8, 9, 10], false) := by
    rw [analyze_crash _ 8 (by norm_num) (by norm_num), h9]
  have h7 : DataSummaryAnalyzer.analyze (fun d => decide (d < 10)) 7 =
      ([7, 8, 9, 10], false) := by
    rw [analyze_crash _ 7 (by norm_num) (by norm_num), h8]
  have h6 : DataSummaryAnalyzer.analyze (fun d => decide (d < 10)) 6 =
      ([6, 7, 8, 9, 10], false) := by
    rw [analyze_crash _ 6 (by norm_num) (by norm_num), h7]
  have h5 : DataSummaryAnalyzer.analyze (fun d => decide (d < 10)) 5 =
      ([5, 6, 7, 8, 9, 10], false) := by
    rw [analyze_crash _ 5 (by norm_num) (by norm_num), h6]
  have h4 : DataSummaryAnalyzer.analyze (fun d => decide (d < 10)) 4 =
      ([4, 5, 6, 7, 8, 9, 10], false) := by
    rw [analyze_crash _ 4 (by norm_num) (by norm_num), h5]
  have h3 : DataSummaryAnalyzer.analyze (fun d => decide (d < 10)) 3 =
      ([3, 4, 5, 6, 7, 8, 9, 10], false) := by
    rw [analyze_crash _ 3 (by norm_num) (by norm_num), h4]
  have h2 : DataSummaryAnalyzer.analyze (fun d => decide (d < 10)) 2 =
      ([2, 3, 4, 5, 6, 7, 8, 9, 10], false) := by
    rw [analyze_crash _ 2 (by norm_num) (by norm_num), h3]
  have h1 : DataSummaryAnalyzer.analyze (fun d => decide (d < 10)) 1 =
      ([1, 2, 3, 4, 5, 6, 7, 8, 9, 10], false) := by
    rw [analyze_crash _ 1 (by norm_num) (by norm_num), h2]
  have h0 : DataSummaryAnalyzer.analyze (fun d => decide (d < 10)) 0 =
      ([0, 1, 2, 3, 4, 5, 6, 7, 8, 9, 10], false) := by
    rw [analyze_crash _ 0 (by norm_num) (by norm_num), h1]
  have hrange : List.range 11 = [0, 1, 2, 3, 4, 5, 6, 7, 8, 9, 10] := by rfl
  refine ⟨by rw [h0, hrange], ?_, by rw [h0]⟩
  rw [h0]
  simp

/-- C1 amended: only after 11 consecutive worker-pool crashes (when the depth
counter exceeds the retry ceiling of 10) does the analysis fail fatally with
the abort `RuntimeError`, making no 12th attempt; the attempt trace of such a
run is exactly `List.range 11` (attempts at depths 0 through 10). -/
theorem claim_C1 (c : Nat → Bool) (hall : ∀ d, d ≤ 10 → c d = true) :
    DataSummaryAnalyzer.analyze c 0 = (List.range 11, true) := by
  have h := analyze_all_crash c hall 11 (le_refl 11)
  simpa [List.range_eq_range'] using h

/-- C1 witness: with every attempt crashing, the run makes attempts at depths
0 through 10 and raises. -/
theorem claim_C1_witness :
    (∀ d, d ≤ 10 → (fun _ : Nat => true) d = true)
    ∧ DataSummaryAnalyzer.analyze (fun _ : Nat => true) 0 = (List.range 11, true) :=
  ⟨fun _ _ => rfl, claim_C1 (fun _ => true) (fun _ _ => rfl)⟩

/-! ### Claim about the UEFI unpacker -/

/-- C9: whenever the extraction subprocess exits non-zero, the unpack
operation fails with the `CalledProcessError` carrying that exit code and the
invoked command line, and commits no child resources. -/
theorem claim_C9 {α : Type} (exitCode : Int) (extracted : List α)
    (h : exitCode ≠ 0) :
    UefiUnpacker.unpack exitCode extracted =
      Except.error ⟨exitCode, ["uefiextract", "uefi.rom"]⟩
    ∧ childrenCreated (UefiUnpacker.unpack exitCode extracted) = ([] : List α) := by
  have hmod : UefiUnpacker.unpack exitCode extracted =
      Except.error ⟨exitCode, uefiCmd⟩ := by
    rw [UefiUnpacker.unpack, if_pos h]
  exact ⟨hmod, by rw [hmod]; rfl⟩

/-- C9 witness: exit code 1 with a non-trivial extracted tree. -/
theorem claim_C9_witness :
    ((1 : Int) ≠ 0)
    ∧ (UefiUnpacker.unpack (1 : Int) ([7] : List Nat) =
        Except.error ⟨1, ["uefiextract", "uefi.rom"]⟩
      ∧ childrenCreated (UefiUnpacker.unpack (1 : Int) ([7] : List Nat)) = []) :=
  ⟨by norm_num, claim_C9 1 [7] (by norm_num)⟩

end OfrakModel
